import Mathlib

/-!
Verification of the used-state persistence and filename-identity tracking
module of cover_gallery.py: the UsedStore class (load, mark, save,
apply_renames), the rename engine (auto_rename_images) and the convert
engine (convert_heic_to_jpg).

Modelling conventions:
* Python dicts are association lists processed in insertion order; keys of
  reachable stores are unique (enforced by the insert/pop operations).
* Characters are treated at ASCII level: str.isdigit, str.lower and
  str.strip are modelled by their ASCII behaviour, which coincides with
  Python on the filenames and extensions this program manipulates.
* Disk state is passed explicitly; fallible code returns Except values.
-/

/-- JSON values, as produced and consumed by Python's json module.
(Arrays are omitted; for `UsedStore._load` every non-object document
behaves the same way, via the modelled AttributeError.) -/
inductive Json where
  | null
  | bool (b : Bool)
  | num (n : Int)
  | str (s : String)
  | obj (fields : List (String × Json))

/-- The in-memory mapping of `UsedStore` (`self._used`):
filename → record, where a record is a JSON value
(for `mark` always the object with a single `marked_at` field). -/
abbrev UsedMap := List (String × Json)

/-- Python `key in dict`. -/
def keyMem (u : UsedMap) (k : String) : Bool :=
  u.any (fun p => p.1 == k)

/-- Python `dict[key]` lookup / `dict.get(key)`. -/
def dictLookup (u : UsedMap) (k : String) : Option Json :=
  (u.find? (fun p => p.1 == k)).map Prod.snd

/-- Python `dict[key] = v`: overwrite the existing binding in place,
or append a fresh binding at the end. -/
def dictInsert (u : UsedMap) (k : String) (v : Json) : UsedMap :=
  if keyMem u k then u.map (fun p => if p.1 == k then (k, v) else p)
  else u ++ [(k, v)]

/-- Python `dict.pop(key)` / `dict.pop(key, None)`: drop the binding of
`key` when present. -/
def dictPop (u : UsedMap) (k : String) : UsedMap :=
  u.filter (fun p => p.1 != k)

/-- `UsedStore.mark(filename, used)` from cover_gallery.py lines 100-105,
with the wall clock (`_utc_now_iso()`) passed explicitly as `now`.
Returns the new mapping together with the number of `_save` calls made. -/
def UsedStore.mark (u : UsedMap) (filename : String) (used : Bool) (now : String) :
    UsedMap × Nat :=
  (if used then dictInsert u filename (Json.obj [("marked_at", Json.str now)])
   else dictPop u filename, 1)

/-- One iteration of the loop in `UsedStore.apply_renames`
(cover_gallery.py lines 117-127), acting on (mapping, updated-flag). -/
def UsedStore.applyRenamesStep (acc : UsedMap × Bool) (pr : String × String) :
    UsedMap × Bool :=
  if pr.1 == pr.2 then acc
  else if !keyMem acc.1 pr.1 then acc
  else if keyMem acc.1 pr.2 then (dictPop acc.1 pr.1, true)
  else
    (match dictLookup acc.1 pr.1 with
     | some v => dictInsert (dictPop acc.1 pr.1) pr.2 v
     | none => acc.1,
     true)

/-- `UsedStore.apply_renames(renames)` (cover_gallery.py lines 113-129).
The mapping argument is the list of (old, new) pairs in iteration order.
Returns the new mapping and the number of `_save` calls made. -/
def UsedStore.applyRenames (u : UsedMap) (renames : List (String × String)) :
    UsedMap × Nat :=
  if renames.isEmpty then (u, 0)
  else
    let r := renames.foldl UsedStore.applyRenamesStep (u, false)
    (r.1, if r.2 then 1 else 0)

/-- The observable states of the sidecar file when `UsedStore._load` runs:
missing, unreadable (read_text raises), unparsable (json.loads raises),
or parsed to a JSON document. -/
inductive SidecarFile where
  | absent
  | unreadable
  | malformed
  | parsed (doc : Json)

/-- The Python exceptions that the try-block of `UsedStore._load` can see. -/
inductive PyError where
  | ioError
  | jsonDecodeError
  | attributeError
deriving DecidableEq

/-- The body of the try-block of `UsedStore._load` (cover_gallery.py lines
90-93): read and parse the file, take `data.get("used", {})`, keep it if it
is a dict and otherwise use `{}`.  A non-object document makes `.get`
raise AttributeError; read and parse failures raise their own errors. -/
def UsedStore.loadAttempt : SidecarFile → Except PyError UsedMap
  | .absent => .ok []
  | .unreadable => .error .ioError
  | .malformed => .error .jsonDecodeError
  | .parsed (.obj fields) =>
      .ok (match dictLookup fields "used" with
           | some (.obj u) => u
           | some _ => []
           | none => [])
  | .parsed _ => .error .attributeError

/-- `UsedStore._load` (cover_gallery.py lines 86-95): an absent file gives
an empty mapping; otherwise the try-body runs and any error is absorbed
into an empty mapping. -/
def UsedStore.load (f : SidecarFile) : UsedMap :=
  match f with
  | .absent => []
  | f =>
    match UsedStore.loadAttempt f with
    | .ok u => u
    | .error _ => []

/-- A filesystem path, split into the containing directory and file name. -/
structure FsPath where
  dir : String
  file : String
deriving DecidableEq

/-- Contents of a file on disk: either a complete JSON document, or the
truncated bytes left by a write that was interrupted partway. -/
inductive FileData where
  | truncated
  | jsonDoc (doc : Json)

/-- A disk: a partial map from paths to file contents. -/
def Disk : Type := FsPath → Option FileData

/-- `write_text`: (re)create the file at `p` with contents `c`. -/
def diskWrite (d : Disk) (p : FsPath) (c : FileData) : Disk :=
  fun q => if q = p then some c else d q

/-- `os.replace(src, dst)`: atomically rename `src` over `dst`. -/
def diskReplace (d : Disk) (src dst : FsPath) : Disk :=
  fun q => if q = dst then d src else if q = src then none else d q

/-- Split a list of characters around its last dot:
`splitLastDot l = some (b, a)` when `l = b ++ dot :: a` and `a` is
dot-free; `none` when `l` has no dot. -/
def splitLastDot : List Char → Option (List Char × List Char)
  | [] => none
  | c :: rest =>
    match splitLastDot rest with
    | some (b, a) => some (c :: b, a)
    | none => if c = '.' then some ([], rest) else none

/-- `pathlib.PurePath.suffix` of a bare file name: the part from the last
dot on, empty when the name has no dot, starts with its only dot, or ends
with a dot. -/
def pySuffix (s : String) : String :=
  match splitLastDot s.data with
  | some (b, a) => if b ≠ [] ∧ a ≠ [] then String.mk ('.' :: a) else ""
  | none => ""

/-- `pathlib.PurePath.stem` of a bare file name: the name with its
`pySuffix` removed. -/
def pyStem (s : String) : String :=
  match splitLastDot s.data with
  | some (b, a) => if b ≠ [] ∧ a ≠ [] then String.mk b else s
  | none => s

/-- `pathlib.PurePath.with_suffix`: drop the old suffix, append `suf`. -/
def pyWithSuffix (name : String) (suf : String) : String :=
  pyStem name ++ suf

/-- Python `str.lower` (ASCII). -/
def pyLower (s : String) : String :=
  String.mk (s.data.map Char.toLower)

/-- The temporary path used by `UsedStore._save` (cover_gallery.py line
108): `used_file.with_suffix(used_file.suffix + ".tmp")`, beside the
sidecar file. -/
def tmpPath (p : FsPath) : FsPath :=
  ⟨p.dir, pyWithSuffix p.file (pySuffix p.file ++ ".tmp")⟩

/-- The JSON document serialized by `UsedStore._save` (line 109):
`{"version": 1, "used": self._used}`. -/
def savePayload (u : UsedMap) : Json :=
  Json.obj [("version", Json.num 1), ("used", Json.obj u)]

/-- The disk states a reader can observe during `UsedStore._save`
(cover_gallery.py lines 107-111): before the save; with the temp file
mid-write (interruption leaves truncated bytes there); with the temp file
completely written; and after the atomic rename of the temp file over the
sidecar path. -/
def saveTrace (d : Disk) (p : FsPath) (u : UsedMap) : List Disk :=
  [d,
   diskWrite d (tmpPath p) FileData.truncated,
   diskWrite d (tmpPath p) (FileData.jsonDoc (savePayload u)),
   diskReplace (diskWrite d (tmpPath p) (FileData.jsonDoc (savePayload u))) (tmpPath p) p]

/-- The character of a decimal digit. -/
def decDigitChar (d : Nat) : Char := Char.ofNat (48 + d)

/-- Digits of `n`, least significant first, with explicit fuel. -/
def decReprAux : Nat → Nat → List Char
  | 0, _ => []
  | _ + 1, 0 => []
  | fuel + 1, n + 1 => decDigitChar ((n + 1) % 10) :: decReprAux fuel ((n + 1) / 10)

/-- Decimal rendering of a natural number, modelling Python's `str` /
f-string formatting of a nonnegative int. -/
def decRepr (n : Nat) : String :=
  if n = 0 then "0" else String.mk ((decReprAux n n).reverse)

/-- Python `int(...)` on a string of ASCII digits. -/
def decVal (s : String) : Nat :=
  s.data.foldl (fun a c => a * 10 + (c.toNat - 48)) 0

/-- Python `str.isdigit` (ASCII): nonempty and all characters digits. -/
def pyIsDigit (s : String) : Bool :=
  !s.data.isEmpty && s.data.all Char.isDigit

/-- `IMAGE_EXTS` from cover_gallery.py line 21. -/
def IMAGE_EXTS : List String :=
  [".jpg", ".jpeg", ".png", ".gif", ".bmp", ".webp", ".heif", ".heic"]

/-- `_is_simple_number_name` (cover_gallery.py lines 179-185): the stem is
purely numeric and at most 6 digits long. -/
def isSimpleNumberName (name : String) : Bool :=
  pyIsDigit (pyStem name) && decide ((pyStem name).length ≤ 6)

/-- The `max_num` computation of `auto_rename_images` (cover_gallery.py
lines 191-200): fold over the image names, keeping the largest purely
numeric stem value that is below 1,000,000.  (In the ASCII model,
`int(base)` always succeeds when `base.isdigit()` holds, so the
ValueError branch is unreachable.) -/
def maxNumOf (images : List String) : Nat :=
  images.foldl
    (fun acc nm =>
      if pyIsDigit (pyStem nm) then
        if decVal (pyStem nm) < 1000000 ∧ acc < decVal (pyStem nm) then decVal (pyStem nm)
        else acc
      else acc)
    0

/-- The candidate file name `f"{n}{ext}"` probed by the rename loop. -/
def numName (n : Nat) (ext : String) : String := decRepr n ++ ext

/-- The `while (folder / f"{next_num}{ext}").exists(): next_num += 1`
search (cover_gallery.py lines 213-214), with fuel. -/
def findFreeAux (disk : List String) (ext : String) : Nat → Nat → Nat
  | 0, n => n
  | fuel + 1, n =>
    if numName n ext ∈ disk then findFreeAux disk ext fuel (n + 1) else n

/-- The number the rename loop settles on: the first `k ≥ n` such that
`numName k ext` is not on disk.  `disk.length + 1` steps always suffice
because the candidate names are pairwise distinct. -/
def findFree (disk : List String) (ext : String) (n : Nat) : Nat :=
  findFreeAux disk ext (disk.length + 1) n

/-- One processed (renamed) file in an `auto_rename_images` pass: the
source name, the chosen number, the value `next_num` held when this file
was reached, and the directory contents at that moment. -/
structure RStep where
  src : String
  num : Nat
  startNum : Nat
  diskBefore : List String
deriving DecidableEq

/-- The target name of a rename step: the chosen number with the source's
extension (`f"{next_num}{ext}"`, extension preserved). -/
def rTgt (s : RStep) : String := numName s.num (pySuffix s.src)

/-- The main loop of a non-dry-run `auto_rename_images` pass
(cover_gallery.py lines 207-222) over the already-sorted image names:
skip simple-number names, otherwise pick the first free number from
`next_num` on, rename on disk (`os.replace`), and continue with the
successor of the chosen number. -/
def autoRenameRun : List String → List String → Nat → List RStep
  | [], _, _ => []
  | f :: fs, disk, n =>
    if isSimpleNumberName f then autoRenameRun fs disk n
    else
      let k := findFree disk (pySuffix f) n
      ⟨f, k, n, disk⟩ :: autoRenameRun fs (numName k (pySuffix f) :: disk.erase f) (k + 1)

/-- `sorted(images, key=lambda p: p.name.lower())`: ascending
case-insensitive order. -/
def lowerLe (a b : String) : Prop := pyLower a ≤ pyLower b

instance : DecidableRel lowerLe :=
  fun a b => inferInstanceAs (Decidable (pyLower a ≤ pyLower b))

instance : IsTotal String lowerLe := ⟨fun a b => le_total (pyLower a) (pyLower b)⟩

instance : IsTrans String lowerLe := ⟨fun _ _ _ h h' => le_trans h h'⟩

/-- A full non-dry-run `auto_rename_images` pass (cover_gallery.py lines
188-226): `images` are the folder's image files, `disk` the full set of
names in the folder (used by the existence probes); the loop runs over
the images in ascending case-insensitive order starting at
`max_num + 1`. -/
def autoRenameImages (images disk : List String) : List RStep :=
  autoRenameRun (List.insertionSort lowerLe images) disk (maxNumOf images + 1)

/-- A mutating operation on a `UsedStore`. -/
inductive StoreOp where
  | mark (filename : String) (used : Bool) (now : String)
  | applyRenames (renames : List (String × String))
deriving DecidableEq

/-- Apply one store operation to the in-memory mapping. -/
def stepOp (u : UsedMap) : StoreOp → UsedMap
  | .mark f b now => (UsedStore.mark u f b now).1
  | .applyRenames rs => (UsedStore.applyRenames u rs).1

/-- Run a sequence of store operations from the empty store. -/
def runOps (ops : List StoreOp) : UsedMap := ops.foldl stepOp []

/-- The environment of one `convert_heic_to_jpg` call: the request name,
what the filesystem and the external converter do.  `procReturncode`,
`procStdout`, `procStderr` describe the finished subprocess;
`procRaises` models `subprocess.run` itself raising; `replaceRaises`
models `os.replace(tmp_output, final_output)` raising; `rollbackRaises`
models the best-effort restore `os.replace` raising. -/
structure ConvEnv where
  name : String
  fileExists : Bool
  detected : String
  scriptExists : Bool
  procRaises : Bool
  procReturncode : Int
  procStdout : String
  procStderr : String
  replaceRaises : Bool
  rollbackRaises : Bool

/-- The exceptions `convert_heic_to_jpg` can raise. -/
inductive ConvErr where
  | fileNotFound (name : String)
  | valueError (msg : String)
  | runtimeError (msg : String)
  | procException
  | osReplaceError
deriving DecidableEq

/-- The success payload of `convert_heic_to_jpg` (output name and the
sniffed format, as in the returned dict). -/
structure ConvResult where
  outputName : String
  detected : String
deriving DecidableEq

/-- Where the relevant files sit after a `convert_heic_to_jpg` call:
the original at its original path, the (extension-corrected) original in
the backup subdirectory, and the converted JPEG at the final path. -/
structure ConvFS where
  origAtHome : Bool
  origInBackup : Bool
  outputAtFinal : Bool
deriving DecidableEq

/-- Everything observable about one `convert_heic_to_jpg` call. -/
structure ConvOutcome where
  result : Except ConvErr ConvResult
  fs : ConvFS
  store : UsedMap
  storeSaves : Nat
  remapCall : Option (List (String × String))
  rollbackAttempts : Nat

/-- Python `str.strip` (ASCII whitespace). -/
def pyStrip (s : String) : String := s.trim

/-- The error message for a nonzero converter exit status
(cover_gallery.py lines 724-726): the stripped concatenation of stdout, a
newline and stderr; `RuntimeError(msg or "conversion failed")` replaces
an empty message by the fixed text. -/
def convMsg (out err : String) : String :=
  if pyStrip (out ++ "\n" ++ err) = "" then "conversion failed"
  else pyStrip (out ++ "\n" ++ err)

/-- `file_path.suffix.lower() in {".jpg", ".jpeg"}`. -/
def isJpgJpeg (name : String) : Bool :=
  pyLower (pySuffix name) == ".jpg" || pyLower (pySuffix name) == ".jpeg"

/-- The first failure the try-block of `convert_heic_to_jpg` runs into
(cover_gallery.py lines 708-728): subprocess.run raising, a nonzero exit
status, or `os.replace` of the temp output raising; `none` on success. -/
def convFailure (env : ConvEnv) : Option ConvErr :=
  if env.procRaises then some ConvErr.procException
  else if env.procReturncode ≠ 0 then
    some (ConvErr.runtimeError (convMsg env.procStdout env.procStderr))
  else if env.replaceRaises then some ConvErr.osReplaceError
  else none

/-- `convert_heic_to_jpg(folder, store, name)` (cover_gallery.py lines
664-746).  Validation, the jpg/jpeg relocation of a mislabeled original
into the backup subdirectory, the converter invocation with rollback on
failure, and the final `apply_renames` call are mirrored in order; bare
names stand for paths inside the managed folder. -/
def convertHeicToJpg (env : ConvEnv) (store : UsedMap) : ConvOutcome :=
  if ¬env.fileExists then
    ⟨.error (.fileNotFound env.name), ⟨false, false, false⟩, store, 0, none, 0⟩
  else if ¬(pyLower (pySuffix env.name) ∈ IMAGE_EXTS) then
    ⟨.error (.valueError "not an image"), ⟨true, false, false⟩, store, 0, none, 0⟩
  else if ¬(env.detected == "heif" || env.detected == "heic") then
    ⟨.error (.valueError ("not heic/heif (detected: " ++ env.detected ++ ")")),
     ⟨true, false, false⟩, store, 0, none, 0⟩
  else
    let jpgBranch := isJpgJpeg env.name
    let fsAfterMove : ConvFS :=
      if jpgBranch then ⟨false, true, false⟩ else ⟨true, false, false⟩
    if ¬env.scriptExists then
      ⟨.error (.runtimeError "convert_heic_to_jpg.ps1 not found"),
       fsAfterMove, store, 0, none, 0⟩
    else
      match convFailure env with
      | some e =>
        if jpgBranch ∧ ¬fsAfterMove.origAtHome ∧ fsAfterMove.origInBackup then
          ⟨.error e,
           if env.rollbackRaises then fsAfterMove else ⟨true, false, false⟩,
           store, 0, none, 1⟩
        else ⟨.error e, fsAfterMove, store, 0, none, 0⟩
      | none =>
        let outName := pyStem env.name ++ ".jpg"
        let fsDone : ConvFS := ⟨fsAfterMove.origAtHome, fsAfterMove.origInBackup, true⟩
        if jpgBranch then
          ⟨.ok ⟨outName, env.detected⟩, fsDone, store, 0, none, 0⟩
        else
          let call := [(env.name, outName)]
          ⟨.ok ⟨outName, env.detected⟩, fsDone,
           (UsedStore.applyRenames store call).1, (UsedStore.applyRenames store call).2,
           some call, 0⟩

/-- Written from the words of the C3 claim, for comparison with
`maxNumOf`: the maximum integer value among filenames whose base name is
purely numeric, at most 6 digits long, and of value within 0..999999. -/
def specMaxNumLen6 (images : List String) : Nat :=
  (images.filterMap (fun nm =>
    if pyIsDigit (pyStem nm) && decide ((pyStem nm).length ≤ 6)
        && decide (decVal (pyStem nm) ≤ 999999)
    then some (decVal (pyStem nm)) else none)).foldl max 0

/-- The values the `max_num` loop actually ranges over: purely numeric
base names of value below 1,000,000, with no restriction on digit
count. -/
def maxNumCandidates (images : List String) : List Nat :=
  images.filterMap (fun nm =>
    if pyIsDigit (pyStem nm) && decide (decVal (pyStem nm) < 1000000)
    then some (decVal (pyStem nm)) else none)

/-! ### Association-list dictionary lemmas -/

theorem keyMem_nil (k : String) : keyMem [] k = false := rfl

theorem keyMem_cons (p : String × Json) (u : UsedMap) (k : String) :
    keyMem (p :: u) k = (p.1 == k || keyMem u k) := rfl

theorem keyMem_iff (u : UsedMap) (k : String) :
    keyMem u k = true ↔ ∃ v, (k, v) ∈ u := by
  induction u with
  | nil => simp [keyMem]
  | cons p u ih =>
    obtain ⟨a, v⟩ := p
    simp only [keyMem_cons, Bool.or_eq_true, beq_iff_eq, ih]
    constructor
    · rintro (rfl | ⟨w, hw⟩)
      · exact ⟨v, List.mem_cons_self _ _⟩
      · exact ⟨w, List.mem_cons_of_mem _ hw⟩
    · rintro ⟨w, hw⟩
      rcases List.mem_cons.mp hw with h | h
      · left; exact (congrArg Prod.fst h).symm
      · right; exact ⟨w, h⟩

theorem keyMem_false_iff (u : UsedMap) (k : String) :
    keyMem u k = false ↔ ∀ v, (k, v) ∉ u := by
  rw [← Bool.not_eq_true, keyMem_iff]
  push_neg
  rfl

theorem mem_dictPop_iff (u : UsedMap) (k f : String) :
    keyMem (dictPop u k) f = true ↔ keyMem u f = true ∧ f ≠ k := by
  simp only [keyMem_iff, dictPop, List.mem_filter]
  constructor
  · rintro ⟨v, hv, hne⟩
    refine ⟨⟨v, hv⟩, ?_⟩
    simpa using hne
  · rintro ⟨⟨v, hv⟩, hne⟩
    exact ⟨v, hv, by simpa using hne⟩

theorem keyMem_dictPop_self (u : UsedMap) (k : String) :
    keyMem (dictPop u k) k = false := by
  rw [← Bool.not_eq_true, mem_dictPop_iff]
  simp

theorem dictPop_of_not_mem (u : UsedMap) (k : String) (hm : keyMem u k = false) :
    dictPop u k = u := by
  induction u with
  | nil => rfl
  | cons p u ih =>
    rw [keyMem_cons, Bool.or_eq_false_iff] at hm
    have hp : (p.1 != k) = true := by
      simpa using hm.1
    simp only [dictPop, List.filter_cons, hp, if_true]
    exact congrArg (p :: ·) (ih hm.2)

theorem length_dictPop_le (u : UsedMap) (k : String) :
    (dictPop u k).length ≤ u.length :=
  List.length_filter_le _ _

theorem length_dictPop_lt (u : UsedMap) (k : String) (hm : keyMem u k = true) :
    (dictPop u k).length < u.length := by
  induction u with
  | nil => simp [keyMem] at hm
  | cons p u ih =>
    rw [keyMem_cons, Bool.or_eq_true] at hm
    by_cases hpk : p.1 = k
    · have hp : (p.1 != k) = false := by simpa using hpk
      simp only [dictPop, List.filter_cons, hp, Bool.false_eq_true, if_false, List.length_cons]
      exact Nat.lt_succ_of_le (List.length_filter_le _ _)
    · have hp : (p.1 != k) = true := by simpa using hpk
      have hm' : keyMem u k = true := by
        rcases hm with h | h
        · exact absurd (by simpa using h) hpk
        · exact h
      simp only [dictPop, List.filter_cons, hp, if_true, List.length_cons]
      exact Nat.succ_lt_succ (ih hm')

theorem keyMem_append (u v : UsedMap) (k : String) :
    keyMem (u ++ v) k = (keyMem u k || keyMem v k) := by
  simp [keyMem, List.any_append]

theorem dictLookup_cons (p : String × Json) (u : UsedMap) (k : String) :
    dictLookup (p :: u) k = if p.1 == k then some p.2 else dictLookup u k := by
  by_cases h : p.1 = k
  · have hb : (p.1 == k) = true := by simpa using h
    unfold dictLookup
    rw [List.find?_cons_of_pos _ (by simpa using h)]
    simp [hb]
  · have hb : (p.1 == k) = false := by simpa using h
    unfold dictLookup
    rw [List.find?_cons_of_neg _ (by simpa using h)]
    simp [hb]

theorem dictPop_cons (p : String × Json) (u : UsedMap) (k : String) :
    dictPop (p :: u) k = if p.1 == k then dictPop u k else p :: dictPop u k := by
  by_cases h : p.1 = k
  · have hb : (p.1 != k) = false := by simpa using h
    simp [dictPop, List.filter_cons, hb, h]
  · have hb : (p.1 != k) = true := by simpa using h
    simp [dictPop, List.filter_cons, hb, h]

theorem mem_dictInsert_iff (u : UsedMap) (k f : String) (v : Json) :
    keyMem (dictInsert u k v) f = true ↔ f = k ∨ keyMem u f = true := by
  by_cases hm : keyMem u k = true
  · simp only [dictInsert, hm, if_true]
    simp only [keyMem_iff] at hm ⊢
    constructor
    · rintro ⟨w, hw⟩
      rcases List.mem_map.mp hw with ⟨p, hp, hgp⟩
      by_cases hpk : p.1 = k
      · left
        have hkf : ((k, v) : String × Json) = (f, w) := by
          simpa [hpk] using hgp
        exact (congrArg Prod.fst hkf).symm
      · right
        have hpf : p = (f, w) := by simpa [hpk] using hgp
        exact ⟨w, hpf ▸ hp⟩
    · rintro (rfl | ⟨w, hw⟩)
      · obtain ⟨w, hw⟩ := hm
        exact ⟨v, List.mem_map.mpr ⟨(f, w), hw, by simp⟩⟩
      · by_cases hfk : f = k
        · subst hfk
          exact ⟨v, List.mem_map.mpr ⟨(f, w), hw, by simp⟩⟩
        · exact ⟨w, List.mem_map.mpr ⟨(f, w), hw, by simp [hfk]⟩⟩
  · have hm' : keyMem u k = false := by simpa using hm
    simp only [dictInsert, hm', Bool.false_eq_true, if_false, keyMem_append,
      Bool.or_eq_true, keyMem_cons, keyMem_nil, Bool.or_false, beq_iff_eq]
    constructor
    · rintro (h | h)
      · right; exact h
      · left; exact h.symm
    · rintro (h | h)
      · right; exact h.symm
      · left; exact h

theorem dictLookup_nil (k : String) : dictLookup [] k = none := rfl

theorem dictLookup_none_iff (u : UsedMap) (k : String) :
    dictLookup u k = none ↔ keyMem u k = false := by
  induction u with
  | nil => simp [dictLookup, keyMem]
  | cons p u ih =>
    by_cases h : p.1 = k <;>
      simp [dictLookup_cons, keyMem_cons, h, ih]

theorem dictLookup_isSome_of_mem (u : UsedMap) (k : String) (hm : keyMem u k = true) :
    ∃ v, dictLookup u k = some v := by
  cases h : dictLookup u k with
  | none => rw [dictLookup_none_iff] at h; rw [hm] at h; cases h
  | some v => exact ⟨v, rfl⟩

theorem dictLookup_dictPop_ne (u : UsedMap) (k f : String) (hfk : f ≠ k) :
    dictLookup (dictPop u k) f = dictLookup u f := by
  induction u with
  | nil => rfl
  | cons p u ih =>
    by_cases hpk : p.1 = k
    · have hpf : (p.1 == f) = false := by
        simp only [beq_eq_false_iff_ne, ne_eq, hpk]
        exact fun h => hfk h.symm
      simp [dictPop_cons, hpk, dictLookup_cons, hpf, ih, hfk, Ne.symm hfk]
    · by_cases hpf : p.1 = f <;>
        simp [dictPop_cons, hpk, dictLookup_cons, hpf, ih, hfk, Ne.symm hfk]

theorem dictLookup_map_replace_self (u : UsedMap) (k : String) (v : Json)
    (hm : keyMem u k = true) :
    dictLookup (u.map (fun p => if p.1 == k then (k, v) else p)) k = some v := by
  induction u with
  | nil => simp [keyMem] at hm
  | cons p u ih =>
    by_cases hpk : p.1 = k
    · have hgp : (if p.1 == k then (k, v) else p) = (k, v) := by simp [hpk]
      rw [List.map_cons, hgp, dictLookup_cons]
      simp
    · have hm' : keyMem u k = true := by
        rw [keyMem_cons, Bool.or_eq_true] at hm
        rcases hm with h | h
        · exact absurd (by simpa using h) hpk
        · exact h
      have hgp : (if p.1 == k then (k, v) else p) = p := by simp [hpk]
      rw [List.map_cons, hgp, dictLookup_cons, if_neg (by simpa using hpk)]
      exact ih hm'

theorem dictLookup_map_replace_ne (u : UsedMap) (k f : String) (v : Json) (hfk : f ≠ k) :
    dictLookup (u.map (fun p => if p.1 == k then (k, v) else p)) f = dictLookup u f := by
  induction u with
  | nil => rfl
  | cons p u ih =>
    by_cases hpk : p.1 = k
    · have hgp : (if p.1 == k then (k, v) else p) = (k, v) := by simp [hpk]
      have hpf : (p.1 == f) = false := by
        simp only [beq_eq_false_iff_ne, ne_eq, hpk]
        exact fun h => hfk h.symm
      rw [List.map_cons, hgp, dictLookup_cons, dictLookup_cons,
        if_neg (by simp; exact fun h => hfk h.symm), if_neg (by simpa using hpf)]
      exact ih
    · have hgp : (if p.1 == k then (k, v) else p) = p := by simp [hpk]
      rw [List.map_cons, hgp, dictLookup_cons, dictLookup_cons]
      by_cases hpf : p.1 = f
      · rw [if_pos (by simpa using hpf), if_pos (by simpa using hpf)]
      · rw [if_neg (by simpa using hpf), if_neg (by simpa using hpf)]
        exact ih

theorem dictLookup_append_single_self (u : UsedMap) (k : String) (v : Json)
    (hm : keyMem u k = false) :
    dictLookup (u ++ [(k, v)]) k = some v := by
  induction u with
  | nil => simp [dictLookup_cons]
  | cons p u ih =>
    rw [keyMem_cons, Bool.or_eq_false_iff] at hm
    have hpk : ¬p.1 = k := by simpa using hm.1
    simp [List.cons_append, dictLookup_cons, hpk, ih hm.2]

theorem dictLookup_append_single_ne (u : UsedMap) (k f : String) (v : Json) (hfk : f ≠ k) :
    dictLookup (u ++ [(k, v)]) f = dictLookup u f := by
  induction u with
  | nil =>
    have hkf : (k == f) = false := by
      simp only [beq_eq_false_iff_ne, ne_eq]
      exact fun h => hfk h.symm
    simp [dictLookup_cons, hkf]
  | cons p u ih =>
    by_cases hpf : p.1 = f <;>
      simp [List.cons_append, dictLookup_cons, hpf, ih]

theorem dictLookup_dictInsert_self (u : UsedMap) (k : String) (v : Json) :
    dictLookup (dictInsert u k v) k = some v := by
  by_cases hm : keyMem u k = true
  · simp only [dictInsert, hm, if_true]
    exact dictLookup_map_replace_self u k v hm
  · have hm' : keyMem u k = false := by simpa using hm
    simp only [dictInsert, hm', Bool.false_eq_true, if_false]
    exact dictLookup_append_single_self u k v hm'

theorem dictLookup_dictInsert_ne (u : UsedMap) (k f : String) (v : Json) (hfk : f ≠ k) :
    dictLookup (dictInsert u k v) f = dictLookup u f := by
  by_cases hm : keyMem u k = true
  · simp only [dictInsert, hm, if_true]
    exact dictLookup_map_replace_ne u k f v hfk
  · have hm' : keyMem u k = false := by simpa using hm
    simp only [dictInsert, hm', Bool.false_eq_true, if_false]
    exact dictLookup_append_single_ne u k f v hfk

theorem length_dictInsert_of_mem (u : UsedMap) (k : String) (v : Json)
    (hm : keyMem u k = true) :
    (dictInsert u k v).length = u.length := by
  simp [dictInsert, hm]

theorem length_dictInsert_of_not_mem (u : UsedMap) (k : String) (v : Json)
    (hm : keyMem u k = false) :
    (dictInsert u k v).length = u.length + 1 := by
  simp [dictInsert, hm]

theorem map_fst_map_replace (u : UsedMap) (k : String) (v : Json) :
    (u.map (fun p => if p.1 == k then (k, v) else p)).map Prod.fst = u.map Prod.fst := by
  rw [List.map_map]
  apply List.map_congr_left
  intro p _
  by_cases hpk : p.1 = k
  · simp [hpk]
  · simp [hpk]

theorem nodupKeys_dictPop (u : UsedMap) (k : String)
    (h : (u.map Prod.fst).Nodup) : ((dictPop u k).map Prod.fst).Nodup :=
  ((List.filter_sublist u).map Prod.fst).nodup h

theorem nodupKeys_dictInsert (u : UsedMap) (k : String) (v : Json)
    (h : (u.map Prod.fst).Nodup) : ((dictInsert u k v).map Prod.fst).Nodup := by
  by_cases hm : keyMem u k = true
  · simp only [dictInsert, hm, if_true]
    rw [map_fst_map_replace]
    exact h
  · have hm' : keyMem u k = false := by simpa using hm
    simp only [dictInsert, hm', Bool.false_eq_true, if_false, List.map_append]
    rw [List.nodup_append]
    refine ⟨h, List.nodup_singleton k, ?_⟩
    intro a ha hb
    simp only [List.map_cons, List.map_nil, List.mem_singleton] at hb
    subst hb
    rcases List.mem_map.mp ha with ⟨p, hp, hpa⟩
    rw [keyMem_false_iff] at hm'
    exact hm' p.2 (by rw [← hpa]; exact hp)

/-! ### apply_renames: step-level behaviour -/

theorem applyRenamesStep_self (u : UsedMap) (b : Bool) (old new : String)
    (h : old = new) :
    UsedStore.applyRenamesStep (u, b) (old, new) = (u, b) := by
  simp [UsedStore.applyRenamesStep, h]

theorem applyRenamesStep_absent (u : UsedMap) (b : Bool) (old new : String)
    (h : keyMem u old = false) :
    UsedStore.applyRenamesStep (u, b) (old, new) = (u, b) := by
  simp [UsedStore.applyRenamesStep, h]

theorem applyRenamesStep_collision (u : UsedMap) (b : Bool) (old new : String)
    (hne : old ≠ new) (hold : keyMem u old = true) (hnew : keyMem u new = true) :
    UsedStore.applyRenamesStep (u, b) (old, new) = (dictPop u old, true) := by
  have hb : (old == new) = false := by simpa using hne
  simp [UsedStore.applyRenamesStep, hb, hold, hnew]

theorem applyRenamesStep_move (u : UsedMap) (b : Bool) (old new : String) (v : Json)
    (hne : old ≠ new) (hold : dictLookup u old = some v) (hnew : keyMem u new = false) :
    UsedStore.applyRenamesStep (u, b) (old, new) =
      (dictInsert (dictPop u old) new v, true) := by
  have hb : (old == new) = false := by simpa using hne
  have hmem : keyMem u old = true := by
    by_contra hc
    have hc' : keyMem u old = false := by simpa using hc
    rw [← dictLookup_none_iff u old] at hc'
    rw [hold] at hc'
    cases hc'
  simp [UsedStore.applyRenamesStep, hb, hmem, hnew, hold]

theorem keyMem_of_dictLookup (u : UsedMap) (k : String) (v : Json)
    (h : dictLookup u k = some v) : keyMem u k = true := by
  by_contra hc
  have hn : dictLookup u k = none := (dictLookup_none_iff u k).mpr (by simpa using hc)
  rw [h] at hn
  cases hn

theorem applyRenamesStep_split (u : UsedMap) (b : Bool) (pr : String × String) :
    UsedStore.applyRenamesStep (u, b) pr = (u, b) ∨
    (pr.1 ≠ pr.2 ∧ keyMem u pr.1 = true ∧ keyMem u pr.2 = true ∧
      UsedStore.applyRenamesStep (u, b) pr = (dictPop u pr.1, true)) ∨
    (∃ v, pr.1 ≠ pr.2 ∧ dictLookup u pr.1 = some v ∧ keyMem u pr.2 = false ∧
      UsedStore.applyRenamesStep (u, b) pr =
        (dictInsert (dictPop u pr.1) pr.2 v, true)) := by
  obtain ⟨old, new⟩ := pr
  by_cases h1 : old = new
  · left; exact applyRenamesStep_self u b old new h1
  · by_cases h2 : keyMem u old = true
    · by_cases h3 : keyMem u new = true
      · right; left
        exact ⟨h1, h2, h3, applyRenamesStep_collision u b old new h1 h2 h3⟩
      · obtain ⟨v, hv⟩ := dictLookup_isSome_of_mem u old h2
        right; right
        exact ⟨v, h1, hv, by simpa using h3,
          applyRenamesStep_move u b old new v h1 hv (by simpa using h3)⟩
    · left; exact applyRenamesStep_absent u b old new (by simpa using h2)

theorem applyRenamesStep_flag_true (u : UsedMap) (pr : String × String) :
    (UsedStore.applyRenamesStep (u, true) pr).2 = true := by
  rcases applyRenamesStep_split u true pr with h0 | ⟨_, _, _, h0⟩ | ⟨v, _, _, _, h0⟩ <;>
    rw [h0]

theorem foldl_applyRenamesStep_flag_true (rs : List (String × String)) (u : UsedMap) :
    ((rs.foldl UsedStore.applyRenamesStep (u, true)).2) = true := by
  induction rs generalizing u with
  | nil => rfl
  | cons p rs ih =>
    cases hs : UsedStore.applyRenamesStep (u, true) p with
    | mk x b' =>
      have hb : b' = true := by
        have h := applyRenamesStep_flag_true u p
        rw [hs] at h
        exact h
      subst hb
      rw [List.foldl_cons, hs]
      exact ih x

theorem foldl_applyRenamesStep_flag_false (rs : List (String × String)) (u : UsedMap) :
    (rs.foldl UsedStore.applyRenamesStep (u, false)).2 = false →
    rs.foldl UsedStore.applyRenamesStep (u, false) = (u, false) := by
  induction rs generalizing u with
  | nil => intro _; rfl
  | cons p rs ih =>
    intro h
    cases hs : UsedStore.applyRenamesStep (u, false) p with
    | mk x b' =>
      cases b' with
      | true =>
        rw [List.foldl_cons, hs] at h
        have ht := foldl_applyRenamesStep_flag_true rs x
        rw [ht] at h
        cases h
      | false =>
        have hxu : x = u := by
          rcases applyRenamesStep_split u false p with h0 | ⟨_, _, _, h0⟩ | ⟨v, _, _, _, h0⟩ <;>
            rw [h0] at hs <;> injection hs with e1 e2
          · exact e1.symm
          · cases e2
          · cases e2
        subst hxu
        rw [List.foldl_cons, hs] at h ⊢
        exact ih x h

theorem keyMem_applyRenamesStep (u : UsedMap) (b : Bool) (pr : String × String)
    (f : String) (h : keyMem ((UsedStore.applyRenamesStep (u, b) pr).1) f = true) :
    keyMem u f = true ∨ (f = pr.2 ∧ pr.1 ≠ pr.2) := by
  rcases applyRenamesStep_split u b pr with h0 | ⟨hne, h1, h2, h0⟩ | ⟨v, hne, h1, h2, h0⟩
  · rw [h0] at h
    left; exact h
  · rw [h0] at h
    left; exact ((mem_dictPop_iff u pr.1 f).mp h).1
  · rw [h0] at h
    rcases (mem_dictInsert_iff (dictPop u pr.1) pr.2 f v).mp h with hf | hf
    · right; exact ⟨hf, hne⟩
    · left; exact ((mem_dictPop_iff u pr.1 f).mp hf).1

theorem foldl_applyRenames_mem (rs : List (String × String)) (u : UsedMap) (b : Bool)
    (f : String)
    (h : keyMem ((rs.foldl UsedStore.applyRenamesStep (u, b)).1) f = true) :
    keyMem u f = true ∨ ∃ o, (o, f) ∈ rs ∧ o ≠ f := by
  induction rs generalizing u b with
  | nil => left; exact h
  | cons p rs ih =>
    rw [List.foldl_cons] at h
    cases hs : UsedStore.applyRenamesStep (u, b) p with
    | mk x b' =>
      rw [hs] at h
      rcases ih x b' h with hx | ⟨o, ho, hne⟩
      · have hx' : keyMem ((UsedStore.applyRenamesStep (u, b) p).1) f = true := by
          rw [hs]; exact hx
        rcases keyMem_applyRenamesStep u b p f hx' with hu | ⟨hf, hne⟩
        · left; exact hu
        · right
          subst hf
          exact ⟨p.1, List.mem_cons_self p rs, hne⟩
      · right; exact ⟨o, List.mem_cons_of_mem _ ho, hne⟩

theorem foldl_applyRenames_not_mem (rs : List (String × String)) (u : UsedMap) (b : Bool)
    (f : String) (h1 : keyMem u f = true)
    (h2 : keyMem ((rs.foldl UsedStore.applyRenamesStep (u, b)).1) f = false) :
    ∃ n, (f, n) ∈ rs ∧ n ≠ f := by
  induction rs generalizing u b with
  | nil =>
    rw [List.foldl_nil] at h2
    rw [h1] at h2
    cases h2
  | cons p rs ih =>
    rw [List.foldl_cons] at h2
    cases hs : UsedStore.applyRenamesStep (u, b) p with
    | mk x b' =>
      rw [hs] at h2
      by_cases hx : keyMem x f = true
      · obtain ⟨n, hn, hne⟩ := ih x b' hx h2
        exact ⟨n, List.mem_cons_of_mem _ hn, hne⟩
      · have hx' : keyMem x f = false := by simpa using hx
        rcases applyRenamesStep_split u b p with h0 | ⟨hne, hm1, hm2, h0⟩ | ⟨v, hne, hm1, hm2, h0⟩
        · rw [h0] at hs
          injection hs with e1 e2
          rw [← e1] at hx'
          rw [h1] at hx'
          cases hx'
        · rw [h0] at hs
          injection hs with e1 e2
          have hf : f = p.1 := by
            by_contra hff
            have hmem := (mem_dictPop_iff u p.1 f).mpr ⟨h1, hff⟩
            rw [e1] at hmem
            rw [hmem] at hx'
            cases hx'
          refine ⟨p.2, ?_, ?_⟩
          · rw [hf]
            have hpe : (p.1, p.2) = p := rfl
            rw [hpe]
            exact List.mem_cons_self p rs
          · rw [hf]
            exact fun hc => hne hc.symm
        · rw [h0] at hs
          injection hs with e1 e2
          have hf : f = p.1 := by
            by_contra hff
            have hmem := (mem_dictPop_iff u p.1 f).mpr ⟨h1, hff⟩
            have hmem' := (mem_dictInsert_iff (dictPop u p.1) p.2 f v).mpr (Or.inr hmem)
            rw [e1] at hmem'
            rw [hmem'] at hx'
            cases hx'
          refine ⟨p.2, ?_, ?_⟩
          · rw [hf]
            have hpe : (p.1, p.2) = p := rfl
            rw [hpe]
            exact List.mem_cons_self p rs
          · rw [hf]
            exact fun hc => hne hc.symm

theorem length_applyRenamesStep_le (u : UsedMap) (b : Bool) (pr : String × String) :
    ((UsedStore.applyRenamesStep (u, b) pr).1).length ≤ u.length := by
  rcases applyRenamesStep_split u b pr with h0 | ⟨hne, h1, h2, h0⟩ | ⟨v, hne, h1, h2, h0⟩
  · rw [h0]
  · rw [h0]
    exact length_dictPop_le u pr.1
  · rw [h0]
    have hmem : keyMem u pr.1 = true := keyMem_of_dictLookup u pr.1 v h1
    have hlt : (dictPop u pr.1).length < u.length := length_dictPop_lt u pr.1 hmem
    have hpop : keyMem (dictPop u pr.1) pr.2 = false := by
      rw [← Bool.not_eq_true, mem_dictPop_iff]
      rintro ⟨hc, -⟩
      rw [h2] at hc
      cases hc
    rw [length_dictInsert_of_not_mem _ _ _ hpop]
    omega

theorem nodupKeys_applyRenamesStep (u : UsedMap) (b : Bool) (pr : String × String)
    (h : (u.map Prod.fst).Nodup) :
    (((UsedStore.applyRenamesStep (u, b) pr).1).map Prod.fst).Nodup := by
  rcases applyRenamesStep_split u b pr with h0 | ⟨hne, h1, h2, h0⟩ | ⟨v, hne, h1, h2, h0⟩
  · rw [h0]; exact h
  · rw [h0]; exact nodupKeys_dictPop u pr.1 h
  · rw [h0]
    exact nodupKeys_dictInsert _ _ _ (nodupKeys_dictPop u pr.1 h)

theorem length_foldl_applyRenames_le (rs : List (String × String)) (u : UsedMap)
    (b : Bool) :
    ((rs.foldl UsedStore.applyRenamesStep (u, b)).1).length ≤ u.length := by
  induction rs generalizing u b with
  | nil => exact le_rfl
  | cons p rs ih =>
    rw [List.foldl_cons]
    cases hs : UsedStore.applyRenamesStep (u, b) p with
    | mk x b' =>
      have hle : x.length ≤ u.length := by
        have := length_applyRenamesStep_le u b p
        rw [hs] at this
        exact this
      exact le_trans (ih x b') hle

theorem nodupKeys_foldl_applyRenames (rs : List (String × String)) (u : UsedMap)
    (b : Bool) (h : (u.map Prod.fst).Nodup) :
    (((rs.foldl UsedStore.applyRenamesStep (u, b)).1).map Prod.fst).Nodup := by
  induction rs generalizing u b with
  | nil => exact h
  | cons p rs ih =>
    rw [List.foldl_cons]
    cases hs : UsedStore.applyRenamesStep (u, b) p with
    | mk x b' =>
      have hx : (x.map Prod.fst).Nodup := by
        have := nodupKeys_applyRenamesStep u b p h
        rw [hs] at this
        exact this
      exact ih x b' hx

theorem applyRenamesStep_flag_iff (u : UsedMap) (b : Bool) (pr : String × String) :
    (UsedStore.applyRenamesStep (u, b) pr).2 = true ↔
      b = true ∨ (UsedStore.applyRenamesStep (u, b) pr).1 ≠ u := by
  rcases applyRenamesStep_split u b pr with h0 | ⟨hne, h1, h2, h0⟩ | ⟨v, hne, h1, h2, h0⟩
  · rw [h0]
    simp
  · rw [h0]
    simp only [true_iff]
    right
    intro he
    have hlt := length_dictPop_lt u pr.1 h1
    rw [he] at hlt
    exact lt_irrefl _ hlt
  · rw [h0]
    simp only [true_iff]
    right
    intro he
    have hmem := (mem_dictInsert_iff (dictPop u pr.1) pr.2 pr.2 v).mpr (Or.inl rfl)
    rw [he] at hmem
    rw [h2] at hmem
    cases hmem

/-! ### Decimal rendering and parsing -/

theorem toNat_decDigitChar (d : Nat) (hd : d < 10) :
    (decDigitChar d).toNat = 48 + d := by
  interval_cases d <;> decide

theorem decDigitChar_ne_dot (d : Nat) (hd : d < 10) : decDigitChar d ≠ '.' := by
  interval_cases d <;> decide

theorem decReprAux_zero (fuel : Nat) : decReprAux fuel 0 = [] := by
  cases fuel <;> rfl

theorem decReprAux_mem (fuel : Nat) : ∀ (n : Nat) (c : Char), c ∈ decReprAux fuel n →
    ∃ d, d < 10 ∧ c = decDigitChar d := by
  induction fuel with
  | zero => intro n c h; cases h
  | succ fuel ih =>
    intro n c h
    cases n with
    | zero => cases h
    | succ m =>
      rw [decReprAux] at h
      rcases List.mem_cons.mp h with h | h
      · exact ⟨(m + 1) % 10, Nat.mod_lt _ (by omega), h⟩
      · exact ih _ c h

theorem foldl_decVal_decReprAux (fuel : Nat) : ∀ (n a : Nat), n ≤ fuel →
    ((decReprAux fuel n).reverse).foldl (fun a c => a * 10 + (c.toNat - 48)) a =
      a * 10 ^ (decReprAux fuel n).length + n := by
  induction fuel with
  | zero =>
    intro n a hn
    have : n = 0 := Nat.le_zero.mp hn
    subst this
    simp [decReprAux]
  | succ fuel ih =>
    intro n a hn
    cases n with
    | zero => simp [decReprAux_zero]
    | succ m =>
      rw [decReprAux]
      have hdiv : (m + 1) / 10 ≤ fuel := by
        have h1 : (m + 1) / 10 < m + 1 := Nat.div_lt_self (by omega) (by omega)
        omega
      rw [List.reverse_cons, List.foldl_append]
      rw [ih ((m + 1) / 10) a hdiv]
      simp only [List.foldl_cons, List.foldl_nil, List.length_cons]
      rw [toNat_decDigitChar _ (Nat.mod_lt _ (by omega))]
      have hmod : 48 + (m + 1) % 10 - 48 = (m + 1) % 10 := by omega
      rw [hmod]
      have hdm : (m + 1) / 10 * 10 + (m + 1) % 10 = m + 1 := by omega
      ring_nf
      omega

theorem decVal_decRepr (n : Nat) : decVal (decRepr n) = n := by
  by_cases hn : n = 0
  · subst hn
    decide
  · rw [decRepr, if_neg hn]
    show ((decReprAux n n).reverse).foldl (fun a c => a * 10 + (c.toNat - 48)) 0 = n
    rw [foldl_decVal_decReprAux n n 0 le_rfl]
    simp

theorem decRepr_inj (m n : Nat) (h : decRepr m = decRepr n) : m = n := by
  rw [← decVal_decRepr m, ← decVal_decRepr n, h]

theorem decRepr_data_ne_nil (n : Nat) : (decRepr n).data ≠ [] := by
  by_cases hn : n = 0
  · subst hn; decide
  · rw [decRepr, if_neg hn]
    cases n with
    | zero => exact absurd rfl hn
    | succ m =>
      show ((decReprAux (m + 1) (m + 1)).reverse) ≠ []
      rw [decReprAux]
      simp

theorem decRepr_no_dot (n : Nat) : '.' ∉ (decRepr n).data := by
  by_cases hn : n = 0
  · subst hn; decide
  · rw [decRepr, if_neg hn]
    intro hmem
    show False
    have hmem' : '.' ∈ decReprAux n n := List.mem_reverse.mp hmem
    obtain ⟨d, hd, hc⟩ := decReprAux_mem n n '.' hmem'
    exact decDigitChar_ne_dot d hd hc.symm

theorem numName_inj (ext : String) (m n : Nat) (h : numName m ext = numName n ext) :
    m = n := by
  apply decRepr_inj
  have hd : (decRepr m).data ++ ext.data = (decRepr n).data ++ ext.data := by
    have := congrArg String.data h
    simpa [numName] using this
  have hlen : (decRepr m).data.length = (decRepr n).data.length := by
    have h2 := congrArg List.length hd
    rw [List.length_append, List.length_append] at h2
    omega
  exact String.ext (List.append_inj hd hlen).1

/-! ### Splitting names around the last dot -/

theorem splitLastDot_eq_none_iff (l : List Char) :
    splitLastDot l = none ↔ '.' ∉ l := by
  induction l with
  | nil => simp [splitLastDot]
  | cons c rest ih =>
    rw [splitLastDot]
    cases hr : splitLastDot rest with
    | some ba =>
      simp only [List.mem_cons]
      constructor
      · intro h; cases h
      · intro h
        have : '.' ∈ rest := by
          by_contra hc
          rw [← ih] at hc
          rw [hr] at hc
          cases hc
        exact absurd (Or.inr this) h
    | none =>
      by_cases hc : c = '.'
      · subst hc
        simp
      · rw [if_neg hc]
        rw [hr] at ih
        simp only [List.mem_cons]
        constructor
        · intro _ h
          rcases h with h | h
          · exact hc h.symm
          · exact (ih.mp rfl) h
        · intro _; trivial

theorem splitLastDot_some (l : List Char) (b a : List Char)
    (h : splitLastDot l = some (b, a)) : l = b ++ '.' :: a ∧ '.' ∉ a := by
  induction l generalizing b with
  | nil => cases h
  | cons c rest ih =>
    rw [splitLastDot] at h
    cases hr : splitLastDot rest with
    | some ba =>
      obtain ⟨b', a'⟩ := ba
      rw [hr] at h
      injection h with h
      injection h with h1 h2
      obtain ⟨he, hna⟩ := ih b' (by rw [hr, h2])
      subst h1 h2
      exact ⟨by rw [List.cons_append, ← he], hna⟩
    | none =>
      rw [hr] at h
      by_cases hc : c = '.'
      · rw [if_pos hc] at h
        injection h with h
        injection h with h1 h2
        subst h1 h2 hc
        exact ⟨rfl, (splitLastDot_eq_none_iff rest).mp hr⟩
      · rw [if_neg hc] at h
        cases h

theorem splitLastDot_append (xs a : List Char) (ha : '.' ∉ a) :
    splitLastDot (xs ++ '.' :: a) = some (xs, a) := by
  induction xs with
  | nil =>
    rw [List.nil_append, splitLastDot,
      (splitLastDot_eq_none_iff a).mpr ha]
    simp
  | cons x xs ih =>
    rw [List.cons_append, splitLastDot, ih]

theorem pyStem_append_pySuffix (s : String) : pyStem s ++ pySuffix s = s := by
  unfold pyStem pySuffix
  cases h : splitLastDot s.data with
  | none =>
    exact String.append_empty s
  | some ba =>
    obtain ⟨b, a⟩ := ba
    obtain ⟨he, hna⟩ := splitLastDot_some s.data b a h
    dsimp only
    by_cases hcond : b ≠ [] ∧ a ≠ []
    · rw [if_pos hcond, if_pos hcond]
      apply String.ext
      show (String.mk b ++ String.mk ('.' :: a)).data = s.data
      rw [String.data_append]
      exact he.symm
    · rw [if_neg hcond, if_neg hcond]
      exact String.append_empty s

theorem pySuffix_shape (s : String) :
    pySuffix s = "" ∨
    ∃ a, a ≠ [] ∧ ('.' ∉ a) ∧ pySuffix s = String.mk ('.' :: a) := by
  unfold pySuffix
  cases h : splitLastDot s.data with
  | none => left; rfl
  | some ba =>
    obtain ⟨b, a⟩ := ba
    obtain ⟨-, hna⟩ := splitLastDot_some s.data b a h
    dsimp only
    by_cases hcond : b ≠ [] ∧ a ≠ []
    · right
      rw [if_pos hcond]
      exact ⟨a, hcond.2, hna, rfl⟩
    · left
      rw [if_neg hcond]

theorem pySuffix_numName (k : Nat) (s : String) :
    pySuffix (numName k (pySuffix s)) = pySuffix s := by
  rcases pySuffix_shape s with he | ⟨a, hne, hna, he⟩
  · rw [he]
    show pySuffix (decRepr k ++ "") = ""
    rw [String.append_empty]
    unfold pySuffix
    rw [(splitLastDot_eq_none_iff (decRepr k).data).mpr (decRepr_no_dot k)]
  · rw [he]
    unfold numName
    unfold pySuffix
    have hdata : (decRepr k ++ String.mk ('.' :: a)).data = (decRepr k).data ++ '.' :: a := by
      rw [String.data_append]
    rw [hdata, splitLastDot_append _ _ hna]
    dsimp only
    rw [if_pos ⟨decRepr_data_ne_nil k, hne⟩]

/-! ### The free-number search -/

theorem exists_free_within (disk : List String) (ext : String) (n : Nat) :
    ∃ k, k ≤ disk.length ∧ numName (n + k) ext ∉ disk := by
  by_contra h
  push_neg at h
  have hinj : Function.Injective (fun k : Nat => numName (n + k) ext) := by
    intro i j hij
    have := numName_inj ext (n + i) (n + j) hij
    omega
  have hnd : ((List.range (disk.length + 1)).map
      (fun k : Nat => numName (n + k) ext)).Nodup :=
    (List.nodup_range _).map hinj
  have hsub : ((List.range (disk.length + 1)).map
      (fun k : Nat => numName (n + k) ext)) ⊆ disk := by
    intro x hx
    rcases List.mem_map.mp hx with ⟨k, hk, rfl⟩
    exact h k (Nat.lt_succ_iff.mp (List.mem_range.mp hk))
  have hle := (hnd.subperm hsub).length_le
  rw [List.length_map, List.length_range] at hle
  omega

theorem findFreeAux_not_mem (disk : List String) (ext : String) :
    ∀ (fuel n : Nat), (∃ k, k < fuel ∧ numName (n + k) ext ∉ disk) →
    numName (findFreeAux disk ext fuel n) ext ∉ disk := by
  intro fuel
  induction fuel with
  | zero =>
    rintro n ⟨k, hk, -⟩
    exact absurd hk (Nat.not_lt_zero k)
  | succ fuel ih =>
    rintro n ⟨k, hk, hfree⟩
    by_cases hmem : numName n ext ∈ disk
    · rw [findFreeAux, if_pos hmem]
      apply ih
      have hk0 : k ≠ 0 := by
        rintro rfl
        rw [Nat.add_zero] at hfree
        exact hfree hmem
      refine ⟨k - 1, by omega, ?_⟩
      have harith : n + 1 + (k - 1) = n + k := by omega
      rw [harith]
      exact hfree
    · rw [findFreeAux, if_neg hmem]
      exact hmem

theorem findFree_not_mem (disk : List String) (ext : String) (n : Nat) :
    numName (findFree disk ext n) ext ∉ disk := by
  obtain ⟨k, hk, hfree⟩ := exists_free_within disk ext n
  exact findFreeAux_not_mem disk ext (disk.length + 1) n ⟨k, by omega, hfree⟩

theorem findFreeAux_ge (disk : List String) (ext : String) :
    ∀ (fuel n : Nat), n ≤ findFreeAux disk ext fuel n := by
  intro fuel
  induction fuel with
  | zero => intro n; exact le_rfl
  | succ fuel ih =>
    intro n
    by_cases hmem : numName n ext ∈ disk
    · rw [findFreeAux, if_pos hmem]
      exact le_trans (Nat.le_succ n) (ih (n + 1))
    · rw [findFreeAux, if_neg hmem]

theorem findFreeAux_min (disk : List String) (ext : String) :
    ∀ (fuel n j : Nat), n ≤ j → j < findFreeAux disk ext fuel n →
    numName j ext ∈ disk := by
  intro fuel
  induction fuel with
  | zero =>
    intro n j hnj hj
    exact absurd hj (by simp [findFreeAux]; omega)
  | succ fuel ih =>
    intro n j hnj hj
    by_cases hmem : numName n ext ∈ disk
    · rw [findFreeAux, if_pos hmem] at hj
      rcases Nat.eq_or_lt_of_le hnj with rfl | hlt
      · exact hmem
      · exact ih (n + 1) j hlt hj
    · rw [findFreeAux, if_neg hmem] at hj
      omega

theorem findFree_ge (disk : List String) (ext : String) (n : Nat) :
    n ≤ findFree disk ext n :=
  findFreeAux_ge disk ext (disk.length + 1) n

theorem findFree_min (disk : List String) (ext : String) (n j : Nat)
    (hnj : n ≤ j) (hj : j < findFree disk ext n) : numName j ext ∈ disk :=
  findFreeAux_min disk ext (disk.length + 1) n j hnj hj

/-! ### The rename loop -/

theorem autoRenameRun_mem (files : List String) :
    ∀ (disk : List String) (n : Nat) (s : RStep), s ∈ autoRenameRun files disk n →
    s.num = findFree s.diskBefore (pySuffix s.src) s.startNum ∧
    isSimpleNumberName s.src = false := by
  induction files with
  | nil => intro disk n s hs; cases hs
  | cons f fs ih =>
    intro disk n s hs
    by_cases hsimple : isSimpleNumberName f = true
    · rw [autoRenameRun, if_pos hsimple] at hs
      exact ih disk n s hs
    · rw [autoRenameRun, if_neg hsimple] at hs
      rcases List.mem_cons.mp hs with rfl | hs
      · exact ⟨rfl, by simpa using hsimple⟩
      · exact ih _ _ s hs

theorem autoRenameRun_srcs (files : List String) :
    ∀ (disk : List String) (n : Nat),
    (autoRenameRun files disk n).map (fun s : RStep => s.src) =
      files.filter (fun f => !isSimpleNumberName f) := by
  induction files with
  | nil => intro disk n; rfl
  | cons f fs ih =>
    intro disk n
    by_cases hsimple : isSimpleNumberName f = true
    · rw [autoRenameRun, if_pos hsimple, List.filter_cons]
      simp only [hsimple, Bool.not_true, Bool.false_eq_true, if_false]
      exact ih disk n
    · rw [autoRenameRun, if_neg hsimple, List.filter_cons]
      have hkeep : (!isSimpleNumberName f) = true := by
        simp only [Bool.not_eq_true']
        simpa using hsimple
      simp only [hkeep, if_true, List.map_cons]
      exact congrArg (f :: ·) (ih _ _)

theorem autoRenameRun_chain (files : List String) :
    ∀ (disk : List String) (n : Nat),
    List.Chain' (fun a b : RStep => b.startNum = a.num + 1)
      (autoRenameRun files disk n) ∧
    (∀ s, (autoRenameRun files disk n).head? = some s → s.startNum = n) := by
  induction files with
  | nil =>
    intro disk n
    exact ⟨List.chain'_nil, fun s h => by cases h⟩
  | cons f fs ih =>
    intro disk n
    by_cases hsimple : isSimpleNumberName f = true
    · rw [autoRenameRun, if_pos hsimple]
      exact ih disk n
    · rw [autoRenameRun, if_neg hsimple]
      constructor
      · rw [List.chain'_cons']
        constructor
        · intro b hb
          have := (ih (numName (findFree disk (pySuffix f) n) (pySuffix f) :: disk.erase f)
            (findFree disk (pySuffix f) n + 1)).2 b hb
          exact this
        · exact (ih _ _).1
      · intro s hs
        injection hs with hs
        rw [← hs]

theorem maxNumOf_go (images : List String) :
    ∀ (acc : Nat),
    images.foldl
      (fun acc nm =>
        if pyIsDigit (pyStem nm) then
          if decVal (pyStem nm) < 1000000 ∧ acc < decVal (pyStem nm) then decVal (pyStem nm)
          else acc
        else acc) acc
    = (maxNumCandidates images).foldl max acc := by
  induction images with
  | nil => intro acc; rfl
  | cons nm images ih =>
    intro acc
    rw [List.foldl_cons]
    by_cases hd : pyIsDigit (pyStem nm) = true
    · by_cases hv : decVal (pyStem nm) < 1000000
      · have hcand : maxNumCandidates (nm :: images) =
            decVal (pyStem nm) :: maxNumCandidates images := by
          unfold maxNumCandidates
          rw [List.filterMap_cons]
          simp [hd, hv]
        have hstep :
            (if decVal (pyStem nm) < 1000000 ∧ acc < decVal (pyStem nm)
             then decVal (pyStem nm) else acc) = max acc (decVal (pyStem nm)) := by
          by_cases hacc : acc < decVal (pyStem nm)
          · rw [if_pos ⟨hv, hacc⟩, Nat.max_eq_right (le_of_lt hacc)]
          · rw [if_neg (fun hc => hacc hc.2), Nat.max_eq_left (by omega)]
        rw [hcand, List.foldl_cons]
        simp only [hd, if_true, hstep]
        exact ih (max acc (decVal (pyStem nm)))
      · have hcand : maxNumCandidates (nm :: images) = maxNumCandidates images := by
          unfold maxNumCandidates
          rw [List.filterMap_cons]
          simp [hv]
        rw [hcand]
        simp only [hd, if_true, if_neg (fun hc : _ ∧ _ => hv hc.1)]
        exact ih acc
    · have hd' : pyIsDigit (pyStem nm) = false := by simpa using hd
      have hcand : maxNumCandidates (nm :: images) = maxNumCandidates images := by
        unfold maxNumCandidates
        rw [List.filterMap_cons]
        simp [hd']
      rw [hcand]
      simp only [hd', Bool.false_eq_true, if_false]
      exact ih acc

theorem maxNumOf_eq (images : List String) :
    maxNumOf images = (maxNumCandidates images).foldl max 0 := by
  unfold maxNumOf
  exact maxNumOf_go images 0

theorem applyRenames_fst (u : UsedMap) (rs : List (String × String)) :
    (UsedStore.applyRenames u rs).1 =
      (rs.foldl UsedStore.applyRenamesStep (u, false)).1 := by
  by_cases he : rs.isEmpty = true
  · have h0 : rs = [] := List.isEmpty_iff.mp he
    subst h0
    rfl
  · have he' : rs.isEmpty = false := by simpa using he
    simp [UsedStore.applyRenames, he']

/-! ### Claim theorems -/

/-- C1: for every (old, new) pair of an `apply_renames` call with
`old ≠ new` and `old` a current key: on a collision (`new` already a key)
the old record is dropped and the destination record is untouched;
otherwise the record moves from `old` to `new`; pairs with `old = new` or
`old` absent change nothing; the call persists exactly once at the end
when some pair changed the mapping (the updated flag is set exactly by a
map-changing pair) and performs no save otherwise. -/
theorem applyRenames_pair_spec (u : UsedMap) (b : Bool) (old new : String)
    (renames : List (String × String)) :
    (old ≠ new → keyMem u old = true → keyMem u new = true →
      UsedStore.applyRenamesStep (u, b) (old, new) = (dictPop u old, true) ∧
      dictLookup (dictPop u old) new = dictLookup u new ∧
      keyMem (dictPop u old) old = false) ∧
    (∀ v, old ≠ new → dictLookup u old = some v → keyMem u new = false →
      UsedStore.applyRenamesStep (u, b) (old, new) =
        (dictInsert (dictPop u old) new v, true) ∧
      dictLookup (dictInsert (dictPop u old) new v) new = some v ∧
      keyMem (dictInsert (dictPop u old) new v) old = false ∧
      (∀ f, f ≠ old → f ≠ new →
        dictLookup (dictInsert (dictPop u old) new v) f = dictLookup u f)) ∧
    (old = new ∨ keyMem u old = false →
      UsedStore.applyRenamesStep (u, b) (old, new) = (u, b)) ∧
    ((UsedStore.applyRenames u renames).2 =
      if (renames.foldl UsedStore.applyRenamesStep (u, false)).2 then 1 else 0) ∧
    ((UsedStore.applyRenamesStep (u, b) (old, new)).2 = true ↔
      b = true ∨ (UsedStore.applyRenamesStep (u, b) (old, new)).1 ≠ u) ∧
    ((UsedStore.applyRenames u renames).2 = 0 →
      (UsedStore.applyRenames u renames).1 = u) := by
  refine ⟨?_, ?_, ?_, ?_, applyRenamesStep_flag_iff u b (old, new), ?_⟩
  · intro hne hold hnew
    refine ⟨applyRenamesStep_collision u b old new hne hold hnew, ?_,
      keyMem_dictPop_self u old⟩
    exact dictLookup_dictPop_ne u old new (fun h => hne h.symm)
  · intro v hne hold hnew
    refine ⟨applyRenamesStep_move u b old new v hne hold hnew,
      dictLookup_dictInsert_self _ new v, ?_, ?_⟩
    · rw [← Bool.not_eq_true, mem_dictInsert_iff]
      rintro (h | h)
      · exact hne h
      · rw [keyMem_dictPop_self u old] at h
        cases h
    · intro f hfo hfn
      rw [dictLookup_dictInsert_ne _ new f v hfn, dictLookup_dictPop_ne u old f hfo]
  · rintro (h | h)
    · exact applyRenamesStep_self u b old new h
    · exact applyRenamesStep_absent u b old new h
  · by_cases he : renames.isEmpty = true
    · have h0 : renames = [] := List.isEmpty_iff.mp he
      subst h0
      rfl
    · have he' : renames.isEmpty = false := by simpa using he
      simp [UsedStore.applyRenames, he']
  · intro h0
    by_cases he : renames.isEmpty = true
    · have h1 : renames = [] := List.isEmpty_iff.mp he
      subst h1
      rfl
    · have he' : renames.isEmpty = false := by simpa using he
      rw [applyRenames_fst]
      simp only [UsedStore.applyRenames, he', Bool.false_eq_true, if_false] at h0
      cases hr : (renames.foldl UsedStore.applyRenamesStep (u, false)).2 with
      | false =>
        rw [foldl_applyRenamesStep_flag_false renames u hr]
      | true =>
        rw [hr] at h0
        simp at h0

/-- C1 witness: on the store with both keys used, the collision pair
drops the source and reports a change. -/
theorem applyRenames_pair_spec_witness :
    UsedStore.applyRenamesStep ([("a", Json.null), ("b", Json.bool true)], false)
      ("a", "b") = (dictPop [("a", Json.null), ("b", Json.bool true)] "a", true) :=
  ((applyRenames_pair_spec [("a", Json.null), ("b", Json.bool true)] false "a" "b"
    [("a", "b")]).1 (by decide) (by rfl) (by rfl)).1

/-- C4: `mark(filename, true)` inserts/overwrites the record with the
supplied fresh timestamp, `mark(filename, false)` removes the key, an
absent-key removal is a no-op rather than an error, other keys are never
touched, and every call (all four cases included) performs exactly one
persist. -/
theorem usedStore_mark_spec (u : UsedMap) (f : String) (now : String) :
    dictLookup (UsedStore.mark u f true now).1 f =
      some (Json.obj [("marked_at", Json.str now)]) ∧
    keyMem (UsedStore.mark u f false now).1 f = false ∧
    (keyMem u f = false → (UsedStore.mark u f false now).1 = u) ∧
    (∀ b, (UsedStore.mark u f b now).2 = 1) ∧
    (∀ b g, g ≠ f → dictLookup (UsedStore.mark u f b now).1 g = dictLookup u g) := by
  refine ⟨?_, ?_, ?_, fun b => rfl, ?_⟩
  · exact dictLookup_dictInsert_self u f _
  · exact keyMem_dictPop_self u f
  · intro hm
    exact dictPop_of_not_mem u f hm
  · intro b g hg
    cases b with
    | false => exact dictLookup_dictPop_ne u f g hg
    | true => exact dictLookup_dictInsert_ne u f g _ hg

/-- C4 witness: removing a key that is not present leaves the mapping
unchanged (and the call still persists once, per the theorem). -/
theorem usedStore_mark_spec_witness :
    (UsedStore.mark [("b.jpg", Json.null)] "a.jpg" false "t").1 =
      [("b.jpg", Json.null)] :=
  (usedStore_mark_spec [("b.jpg", Json.null)] "a.jpg" "t").2.2.1 (by rfl)

/-- C5: `UsedStore` construction never fails because of the sidecar file:
an absent file yields the empty mapping, every error of the load body
(unreadable file, malformed JSON, non-object document) is absorbed into
the empty mapping instead of being raised, and a successful parse is kept
as is. -/
theorem usedStore_load_never_fails (f : SidecarFile) :
    (f = SidecarFile.absent → UsedStore.load f = []) ∧
    (∀ e, UsedStore.loadAttempt f = Except.error e → UsedStore.load f = []) ∧
    (∀ u, UsedStore.loadAttempt f = Except.ok u → f ≠ SidecarFile.absent →
      UsedStore.load f = u) ∧
    UsedStore.loadAttempt SidecarFile.unreadable = Except.error PyError.ioError ∧
    UsedStore.loadAttempt SidecarFile.malformed = Except.error PyError.jsonDecodeError := by
  refine ⟨?_, ?_, ?_, rfl, rfl⟩
  · rintro rfl; rfl
  · intro e he
    cases f with
    | absent => rfl
    | unreadable => rfl
    | malformed => rfl
    | parsed doc =>
      show (match UsedStore.loadAttempt (SidecarFile.parsed doc) with
            | Except.ok u => u
            | Except.error _ => []) = []
      rw [he]
  · intro u hu hne
    cases f with
    | absent => exact absurd rfl hne
    | unreadable => cases hu
    | malformed => cases hu
    | parsed doc =>
      show (match UsedStore.loadAttempt (SidecarFile.parsed doc) with
            | Except.ok u => u
            | Except.error _ => []) = u
      rw [hu]

/-- C5 witness: a sidecar file whose JSON fails to parse loads as the
empty mapping. -/
theorem usedStore_load_never_fails_witness :
    UsedStore.load SidecarFile.malformed = [] :=
  (usedStore_load_never_fails SidecarFile.malformed).2.1 PyError.jsonDecodeError rfl

/-- C10: `apply_renames` never increases the number of keys: the result
is no longer than the input, unique keys stay unique, and every key
present afterwards is an original key or the target of some pair. -/
theorem applyRenames_key_count (u : UsedMap) (rs : List (String × String)) :
    ((UsedStore.applyRenames u rs).1).length ≤ u.length ∧
    ((u.map Prod.fst).Nodup → (((UsedStore.applyRenames u rs).1).map Prod.fst).Nodup) ∧
    (∀ f, keyMem ((UsedStore.applyRenames u rs).1) f = true →
      keyMem u f = true ∨ f ∈ rs.map Prod.snd) := by
  rw [applyRenames_fst]
  refine ⟨length_foldl_applyRenames_le rs u false,
    nodupKeys_foldl_applyRenames rs u false, ?_⟩
  intro f hf
  rcases foldl_applyRenames_mem rs u false f hf with h | ⟨o, ho, hne⟩
  · exact Or.inl h
  · exact Or.inr (List.mem_map.mpr ⟨(o, f), ho, rfl⟩)

/-- C10 witness: after moving the only record, the key set is still
duplicate-free (and no larger, per the theorem). -/
theorem applyRenames_key_count_witness :
    (((UsedStore.applyRenames [("a", Json.null)] [("a", "b")]).1).map Prod.fst).Nodup :=
  (applyRenames_key_count [("a", Json.null)] [("a", "b")]).2.1 (by simp)

/-- C9 counterexample: starting from the empty store, `mark("a", true)`
followed by `apply_renames({"a": "b"})` makes `is_used("b")` true even
though no operation `mark("b", true)` ever ran, refuting the claim that
only `mark(f, true)` can make `is_used(f)` become true. -/
theorem applyRenames_flips_used_counterexample :
    keyMem (runOps [StoreOp.mark "a" true "t0",
      StoreOp.applyRenames [("a", "b")]]) "b" = true ∧
    keyMem (runOps [StoreOp.mark "a" true "t0"]) "b" = false ∧
    (∀ now, (StoreOp.applyRenames [("a", "b")] : StoreOp) ≠ StoreOp.mark "b" true now) := by
  refine ⟨by decide, by decide, ?_⟩
  intro now h
  cases h

/-- C9 amended: `is_used(f)` can flip from false to true only through
`mark(f, true)` or an `apply_renames` call whose mapping contains a pair
`(old, f)` with `old ≠ f`, and from true to false only through
`mark(f, false)` or an `apply_renames` whose mapping contains a pair
`(f, new)` with `new ≠ f`; all other operations preserve it in both
directions. -/
theorem usedFlag_transition_sources (ops : List StoreOp) (op : StoreOp) (f : String) :
    ((∀ now, op ≠ StoreOp.mark f true now) →
     (∀ rs, op = StoreOp.applyRenames rs → ∀ o, (o, f) ∈ rs → o = f) →
     keyMem (stepOp (runOps ops) op) f = true → keyMem (runOps ops) f = true) ∧
    ((∀ now, op ≠ StoreOp.mark f false now) →
     (∀ rs, op = StoreOp.applyRenames rs → ∀ n, (f, n) ∈ rs → n = f) →
     keyMem (runOps ops) f = true → keyMem (stepOp (runOps ops) op) f = true) := by
  constructor
  · intro hmark hrs happ
    cases op with
    | mark g bg now =>
      cases bg with
      | false =>
        have happ' : keyMem (dictPop (runOps ops) g) f = true := happ
        exact ((mem_dictPop_iff (runOps ops) g f).mp happ').1
      | true =>
        have hgf : g ≠ f := by
          rintro rfl
          exact hmark now rfl
        have happ' :
            keyMem (dictInsert (runOps ops) g
              (Json.obj [("marked_at", Json.str now)])) f = true := happ
        rcases (mem_dictInsert_iff (runOps ops) g f _).mp happ' with h | h
        · exact absurd h.symm hgf
        · exact h
    | applyRenames rs =>
      have happ' :
          keyMem ((rs.foldl UsedStore.applyRenamesStep (runOps ops, false)).1) f
            = true := by
        rw [← applyRenames_fst]
        exact happ
      rcases foldl_applyRenames_mem rs (runOps ops) false f happ' with h | ⟨o, ho, hne⟩
      · exact h
      · exact absurd (hrs rs rfl o ho) hne
  · intro hmark hrs hmem
    cases op with
    | mark g bg now =>
      cases bg with
      | false =>
        have hgf : g ≠ f := by
          rintro rfl
          exact hmark now rfl
        show keyMem (dictPop (runOps ops) g) f = true
        exact (mem_dictPop_iff (runOps ops) g f).mpr ⟨hmem, fun h => hgf h.symm⟩
      | true =>
        show keyMem (dictInsert (runOps ops) g
          (Json.obj [("marked_at", Json.str now)])) f = true
        exact (mem_dictInsert_iff (runOps ops) g f _).mpr (Or.inr hmem)
    | applyRenames rs =>
      show keyMem ((UsedStore.applyRenames (runOps ops) rs).1) f = true
      rw [applyRenames_fst]
      by_contra hc
      have hc' :
          keyMem ((rs.foldl UsedStore.applyRenamesStep (runOps ops, false)).1) f
            = false := by simpa using hc
      obtain ⟨n, hn, hne⟩ :=
        foldl_applyRenames_not_mem rs (runOps ops) false f hmem hc'
      exact hne (hrs rs rfl n hn)

/-- C9 witness: marking a different file does not clear the used flag of
"a". -/
theorem usedFlag_transition_sources_witness :
    keyMem (stepOp (runOps [StoreOp.mark "a" true "t"])
      (StoreOp.mark "b" true "t2")) "a" = true :=
  (usedFlag_transition_sources [StoreOp.mark "a" true "t"]
    (StoreOp.mark "b" true "t2") "a").2
    (fun now h => by simp at h) (fun rs h => by simp at h) (by decide)

/-- C2: every `_save` serializes the full mapping as the JSON object with
a `version` field equal to 1 and a `used` field holding the mapping,
writes it to a temporary path in the same directory as the sidecar file
(a path distinct from the sidecar path), and atomically renames it over
the sidecar path: at every intermediate disk state of the save, including
the mid-write interruption state, a reader of the sidecar path sees
either the previous content or the complete new snapshot, and after the
rename it sees exactly the new snapshot. -/
theorem save_atomic_snapshot (d : Disk) (p : FsPath) (u : UsedMap) :
    (tmpPath p).dir = p.dir ∧
    tmpPath p ≠ p ∧
    (∀ s ∈ saveTrace d p u,
      s p = d p ∨ s p = some (FileData.jsonDoc (savePayload u))) ∧
    (diskReplace (diskWrite d (tmpPath p) (FileData.jsonDoc (savePayload u)))
      (tmpPath p) p) p = some (FileData.jsonDoc (savePayload u)) ∧
    savePayload u = Json.obj [("version", Json.num 1), ("used", Json.obj u)] := by
  have htmp : tmpPath p ≠ p := by
    intro h
    have hfile : (tmpPath p).file = p.file := congrArg FsPath.file h
    have hlen : (tmpPath p).file.length = p.file.length + 4 := by
      show (pyWithSuffix p.file (pySuffix p.file ++ ".tmp")).length = p.file.length + 4
      unfold pyWithSuffix
      have h4 : (".tmp" : String).length = 4 := by decide
      rw [← String.append_assoc, pyStem_append_pySuffix, String.length_append, h4]
    rw [hfile] at hlen
    omega
  have hlast : (diskReplace (diskWrite d (tmpPath p)
      (FileData.jsonDoc (savePayload u))) (tmpPath p) p) p =
      some (FileData.jsonDoc (savePayload u)) := by
    show (if p = p then diskWrite d (tmpPath p) (FileData.jsonDoc (savePayload u)) (tmpPath p)
          else if p = tmpPath p then none
          else diskWrite d (tmpPath p) (FileData.jsonDoc (savePayload u)) p) = _
    rw [if_pos rfl]
    show (if tmpPath p = tmpPath p then some (FileData.jsonDoc (savePayload u))
          else d (tmpPath p)) = _
    rw [if_pos rfl]
  refine ⟨rfl, htmp, ?_, hlast, rfl⟩
  intro s hs
  simp only [saveTrace, List.mem_cons, List.not_mem_nil, or_false] at hs
  rcases hs with rfl | rfl | rfl | rfl
  · left; rfl
  · left
    show (if p = tmpPath p then some FileData.truncated else d p) = d p
    rw [if_neg (fun h => htmp h.symm)]
  · left
    show (if p = tmpPath p then some (FileData.jsonDoc (savePayload u)) else d p) = d p
    rw [if_neg (fun h => htmp h.symm)]
  · right
    exact hlast

/-- C2 witness: the initial trace state still reads the old sidecar
content. -/
theorem save_atomic_snapshot_witness :
    (fun _ : FsPath => (none : Option FileData)) (FsPath.mk "g" ".cover-used.json") =
      (fun _ : FsPath => (none : Option FileData)) (FsPath.mk "g" ".cover-used.json") ∨
    (fun _ : FsPath => (none : Option FileData)) (FsPath.mk "g" ".cover-used.json") =
      some (FileData.jsonDoc (savePayload [])) :=
  (save_atomic_snapshot (fun _ => none) (FsPath.mk "g" ".cover-used.json") []).2.2.1
    (fun _ => none) (List.mem_cons_self _ _)

/-- C3 counterexample: the purely numeric name "0000007.jpg" has a
7-digit base name of value 7, so by the claim it must not contribute to
`max_num` (which would then be 0); the code's computation yields 7. -/
theorem maxNum_sevenDigit_counterexample :
    maxNumOf ["0000007.jpg"] = 7 ∧
    specMaxNumLen6 ["0000007.jpg"] = 0 ∧
    maxNumOf ["0000007.jpg"] ≠ specMaxNumLen6 ["0000007.jpg"] :=
  ⟨by decide, by decide, by decide⟩

/-- C3 amended: `max_num` is the maximum integer value among image
filenames whose base name is purely numeric and whose value lies within
0..999999, with no restriction on the number of digits (a longer, zero
padded purely numeric base name still contributes when its value is in
range). -/
theorem maxNum_value_characterization (images : List String) :
    maxNumOf images = (maxNumCandidates images).foldl max 0 := by
  unfold maxNumOf
  exact maxNumOf_go images 0

/-- C6: in a non-dry-run `auto_rename_images` pass, every processed step
chooses a number whose name (with the source's extension preserved) is
absent from the directory at the moment of assignment, having skipped
exactly the numbers whose names were present from the step's starting
value on; the processed sources are exactly the non-simple-number image
names in ascending case-insensitive order; each step starts at the
successor of the previous step's chosen number, and the first starts at
`max_num + 1`. -/
theorem autoRename_assignment_spec (images disk : List String) :
    (∀ s ∈ autoRenameImages images disk,
      rTgt s ∉ s.diskBefore ∧
      s.startNum ≤ s.num ∧
      (∀ j, s.startNum ≤ j → j < s.num → numName j (pySuffix s.src) ∈ s.diskBefore) ∧
      pySuffix (rTgt s) = pySuffix s.src) ∧
    (autoRenameImages images disk).map (fun s : RStep => s.src) =
      (List.insertionSort lowerLe images).filter (fun f => !isSimpleNumberName f) ∧
    List.Sorted lowerLe ((autoRenameImages images disk).map (fun s : RStep => s.src)) ∧
    List.Chain' (fun a b : RStep => b.startNum = a.num + 1)
      (autoRenameImages images disk) ∧
    (∀ s, (autoRenameImages images disk).head? = some s →
      s.startNum = maxNumOf images + 1) := by
  refine ⟨?_, autoRenameRun_srcs _ _ _, ?_, (autoRenameRun_chain _ _ _).1,
    (autoRenameRun_chain _ _ _).2⟩
  · intro s hs
    obtain ⟨hnum, -⟩ := autoRenameRun_mem _ _ _ s hs
    refine ⟨?_, ?_, ?_, pySuffix_numName s.num s.src⟩
    · rw [rTgt, hnum]
      exact findFree_not_mem _ _ _
    · rw [hnum]
      exact findFree_ge _ _ _
    · intro j hj1 hj2
      rw [hnum] at hj2
      exact findFree_min _ _ _ j hj1 hj2
  · show List.Sorted lowerLe
      ((autoRenameRun (List.insertionSort lowerLe images) disk
        (maxNumOf images + 1)).map (fun s : RStep => s.src))
    rw [autoRenameRun_srcs _ _ _]
    exact List.Pairwise.filter _ (List.sorted_insertionSort lowerLe images)

/-- C6 witness: renaming the single image "b.jpg" assigns it the free
name "1.jpg", which was not on disk at assignment time. -/
theorem autoRename_assignment_spec_witness :
    rTgt (RStep.mk "b.jpg" 1 1 ["b.jpg"]) ∉ (["b.jpg"] : List String) :=
  ((autoRename_assignment_spec ["b.jpg"] ["b.jpg"]).1
    (RStep.mk "b.jpg" 1 1 ["b.jpg"]) (by decide)).1

/-- C7: after a successful conversion, `apply_renames` is invoked with
the single pair (original name, final output name) exactly when the
original extension was not already .jpg/.jpeg; when it was, no remap call
is made and the store (hence any used flag under that name) is untouched
and no store save happens. -/
theorem convert_remap_iff_ext_changed (env : ConvEnv) (store : UsedMap)
    (h1 : env.fileExists = true)
    (h2 : pyLower (pySuffix env.name) ∈ IMAGE_EXTS)
    (h3 : env.detected = "heif" ∨ env.detected = "heic")
    (h4 : env.scriptExists = true)
    (h5 : env.procRaises = false)
    (h6 : env.procReturncode = 0)
    (h7 : env.replaceRaises = false) :
    ((convertHeicToJpg env store).result =
      Except.ok (ConvResult.mk (pyStem env.name ++ ".jpg") env.detected)) ∧
    ((convertHeicToJpg env store).remapCall =
      (if isJpgJpeg env.name then none
       else some [(env.name, pyStem env.name ++ ".jpg")])) ∧
    (isJpgJpeg env.name = true → (convertHeicToJpg env store).store = store ∧
      (convertHeicToJpg env store).storeSaves = 0) ∧
    (isJpgJpeg env.name = false →
      (convertHeicToJpg env store).store =
        (UsedStore.applyRenames store [(env.name, pyStem env.name ++ ".jpg")]).1 ∧
      (convertHeicToJpg env store).storeSaves =
        (UsedStore.applyRenames store [(env.name, pyStem env.name ++ ".jpg")]).2) := by
  have hdet : (env.detected == "heif" || env.detected == "heic") = true := by
    rcases h3 with h | h <;> rw [h] <;> rfl
  have hfail : convFailure env = none := by
    rw [convFailure, h5, h6, h7]
    simp
  cases hjpg : isJpgJpeg env.name with
  | true =>
    simp [convertHeicToJpg, h1, h2, hdet, h4, hfail, hjpg]
  | false =>
    simp [convertHeicToJpg, h1, h2, hdet, h4, hfail, hjpg]

/-- C7 witness: converting "x.heic" (extension changes) reports the remap
pair to the store. -/
theorem convert_remap_iff_ext_changed_witness :
    (convertHeicToJpg
      (ConvEnv.mk "x.heic" true "heic" true false 0 "" "" false false) []).remapCall =
      (if isJpgJpeg "x.heic" then none
       else some [("x.heic", pyStem "x.heic" ++ ".jpg")]) :=
  (convert_remap_iff_ext_changed
    (ConvEnv.mk "x.heic" true "heic" true false 0 "" "" false false) []
    rfl (by decide) (Or.inr rfl) rfl rfl rfl rfl).2.1

/-- C8 counterexample: for a mislabeled "img.jpg" that sniffs as HEIC
with the converter script absent, the original has already been moved
into the backup subdirectory when the script check fails, yet the failure
is raised outside the try block, so zero rollback attempts are made —
refuting "exactly one best-effort move back on any failure occurring
after the move". -/
theorem convert_scriptMissing_no_rollback :
    (convertHeicToJpg
      (ConvEnv.mk "img.jpg" true "heic" false false 0 "" "" false false) []).result =
      Except.error (ConvErr.runtimeError "convert_heic_to_jpg.ps1 not found") ∧
    (convertHeicToJpg
      (ConvEnv.mk "img.jpg" true "heic" false false 0 "" "" false false) []).fs =
      ConvFS.mk false true false ∧
    (convertHeicToJpg
      (ConvEnv.mk "img.jpg" true "heic" false false 0 "" "" false false)
      []).rollbackAttempts = 0 :=
  ⟨rfl, rfl, rfl⟩

/-- C8 amended: a nonzero converter exit status is a failure whose
message is the stripped concatenation of stdout and stderr, or
"conversion failed" when that text is empty; for any failure raised
inside the conversion try block after the original was moved into the
backup subdirectory, exactly one best-effort move back is attempted
before the error propagates (a failing rollback is swallowed and the
original error still propagates); when the original was not moved no
rollback is attempted; and the converter-script existence check, which
runs after the move but outside the try block, fails with no rollback
attempt. -/
theorem convert_failure_semantics (env : ConvEnv) (store : UsedMap)
    (h1 : env.fileExists = true)
    (h2 : pyLower (pySuffix env.name) ∈ IMAGE_EXTS)
    (h3 : env.detected = "heif" ∨ env.detected = "heic") :
    (env.scriptExists = true → env.procRaises = false → env.procReturncode ≠ 0 →
      (convertHeicToJpg env store).result =
        Except.error (ConvErr.runtimeError (convMsg env.procStdout env.procStderr)) ∧
      convMsg env.procStdout env.procStderr =
        (if pyStrip (env.procStdout ++ "\n" ++ env.procStderr) = ""
         then "conversion failed"
         else pyStrip (env.procStdout ++ "\n" ++ env.procStderr))) ∧
    (∀ e, env.scriptExists = true → convFailure env = some e →
      isJpgJpeg env.name = true →
      (convertHeicToJpg env store).result = Except.error e ∧
      (convertHeicToJpg env store).rollbackAttempts = 1 ∧
      (env.rollbackRaises = false → (convertHeicToJpg env store).fs.origAtHome = true) ∧
      (env.rollbackRaises = true →
        (convertHeicToJpg env store).fs = ConvFS.mk false true false)) ∧
    (∀ e, env.scriptExists = true → convFailure env = some e →
      isJpgJpeg env.name = false →
      (convertHeicToJpg env store).result = Except.error e ∧
      (convertHeicToJpg env store).rollbackAttempts = 0) ∧
    (env.scriptExists = false → isJpgJpeg env.name = true →
      (convertHeicToJpg env store).result =
        Except.error (ConvErr.runtimeError "convert_heic_to_jpg.ps1 not found") ∧
      (convertHeicToJpg env store).rollbackAttempts = 0 ∧
      (convertHeicToJpg env store).fs = ConvFS.mk false true false) := by
  have hdet : (env.detected == "heif" || env.detected == "heic") = true := by
    rcases h3 with h | h <;> rw [h] <;> rfl
  refine ⟨?_, ?_, ?_, ?_⟩
  · intro hs hp hr
    have hfail : convFailure env =
        some (ConvErr.runtimeError (convMsg env.procStdout env.procStderr)) := by
      rw [convFailure, hp]
      simp [hr]
    constructor
    · cases hjpg : isJpgJpeg env.name with
      | true =>
        cases hrb : env.rollbackRaises with
        | false => simp [convertHeicToJpg, h1, h2, hdet, hs, hfail, hjpg, hrb]
        | true => simp [convertHeicToJpg, h1, h2, hdet, hs, hfail, hjpg, hrb]
      | false => simp [convertHeicToJpg, h1, h2, hdet, hs, hfail, hjpg]
    · rw [convMsg]
  · intro e hs hfail hjpg
    cases hrb : env.rollbackRaises with
    | false => simp [convertHeicToJpg, h1, h2, hdet, hs, hfail, hjpg, hrb]
    | true => simp [convertHeicToJpg, h1, h2, hdet, hs, hfail, hjpg, hrb]
  · intro e hs hfail hjpg
    simp [convertHeicToJpg, h1, h2, hdet, hs, hfail, hjpg]
  · intro hs hjpg
    simp [convertHeicToJpg, h1, h2, hdet, hs, hjpg]

/-- C8 amended witness: a nonzero exit with output "boom" fails with the
stripped combined text as the message. -/
theorem convert_failure_semantics_witness :
    (convertHeicToJpg
      (ConvEnv.mk "x.heic" true "heic" true false 1 "boom" "" false false) []).result =
      Except.error (ConvErr.runtimeError (convMsg "boom" "")) :=
  ((convert_failure_semantics
    (ConvEnv.mk "x.heic" true "heic" true false 1 "boom" "" false false) []
    rfl (by decide) (Or.inr rfl)).1 rfl rfl (by decide)).1
